import Mathlib

/-!
Verification of the core of `wordle_solver.py` (class `WordleSolver`).

Words and feedback patterns are modelled as `List Char`; the candidate pool
(`self.possible_answers`, a Python `set`) is a `Finset (List Char)`.  Python
floats are modelled as exact reals.  Functions that in Python iterate over an
unordered `set` in its (unspecified) iteration order receive that iteration
order as an explicit `List` argument.
-/

abbrev Word := List Char

/-- Python's `str.strip` whitespace test, restricted to the ASCII whitespace
characters relevant to this domain. -/
def py_isspace (c : Char) : Bool :=
  c = ' ' || c = '\t' || c = '\n' || c = '\r' || c = '\x0b' || c = '\x0c'

/-- Python's `str.strip`: drop leading and trailing whitespace. -/
def py_strip (s : List Char) : List Char :=
  ((s.dropWhile py_isspace).reverse.dropWhile py_isspace).reverse

/-- Python's `str.lower`, for the ASCII domain of this program. -/
def py_lower (s : List Char) : List Char :=
  s.map Char.toLower

/-- The normalisation `x.lower().strip()` applied by `apply_guess` to its two
string arguments. -/
def py_norm (s : List Char) : List Char :=
  py_strip (py_lower s)

/-- Python's `str.isalpha`, for the ASCII domain of this program: nonempty and
all letters. -/
def py_isalpha (s : List Char) : Bool :=
  !s.isEmpty && s.all Char.isAlpha

/-- `answer_chars[answer_chars.index(g)] = None`: blank out the first
occurrence of `some c` in the list. -/
def remove_first (c : Char) : List (Option Char) → List (Option Char)
  | [] => []
  | x :: xs => if x = some c then none :: xs else x :: remove_first c xs

/-- First pass of `WordleSolver.get_pattern`: walking `zip guess answer`, mark
`'g'` at exact matches and blank the matched answer letter (`answer_chars[i] =
None`); elsewhere mark `'x'` and keep the answer letter available. Returns the
pattern so far and the surviving `answer_chars` list. -/
def first_pass : List Char → List Char → List Char × List (Option Char)
  | g :: gs, a :: as =>
    let r := first_pass gs as
    if g = a then ('g' :: r.1, none :: r.2) else ('x' :: r.1, some a :: r.2)
  | _, _ => ([], [])

/-- Second pass of `WordleSolver.get_pattern`: positions still `'x'` whose
guess letter survives in `answer_chars` become `'y'`, consuming the first
surviving occurrence. -/
def second_pass : List Char → List Char → List (Option Char) → List Char
  | g :: gs, p :: ps, chars =>
    if p = 'x' ∧ some g ∈ chars then
      'y' :: second_pass gs ps (remove_first g chars)
    else
      p :: second_pass gs ps chars
  | _, ps, _ => ps

/-- `WordleSolver.get_pattern(guess, answer)`: the two-pass Wordle feedback
computation, for the equal-length (five-letter) words of the domain. -/
def get_pattern (guess answer : List Char) : List Char :=
  let fp := first_pass guess answer
  second_pass guess fp.1 fp.2

/-- The multiset of answer letters still available in an `answer_chars`
list: the `some` entries, position forgotten. -/
def ms_of (l : List (Option Char)) : Multiset Char :=
  (l.filterMap id : List Char)

/-- Modelled from the spec (§4.1, step 1): first pass marks Hit where
`guess[i] == answer[i]` and removes that occurrence from a copy of the
answer's letter multiset; other answer letters stay in the multiset. -/
def spec_first_pass : List Char → List Char → List Char × Multiset Char
  | g :: gs, a :: as =>
    let r := spec_first_pass gs as
    if g = a then ('g' :: r.1, r.2) else ('x' :: r.1, a ::ₘ r.2)
  | _, _ => ([], 0)

/-- Modelled from the spec (§4.1, step 2): a position not already Hit is
marked Present if its guess letter remains in the answer multiset (consuming
one occurrence), else Absent. -/
def spec_second_pass : List Char → List Char → Multiset Char → List Char
  | g :: gs, p :: ps, m =>
    if p = 'x' ∧ g ∈ m then
      'y' :: spec_second_pass gs ps (m.erase g)
    else
      p :: spec_second_pass gs ps m
  | _, ps, _ => ps

/-- Modelled from the spec (§4.1): the two-pass multiset-consuming feedback
algorithm, stated with a genuine `Multiset` instead of the code's positional
`answer_chars` list with `None` holes. -/
def spec_pattern (guess answer : List Char) : List Char :=
  let fp := spec_first_pass guess answer
  spec_second_pass guess fp.1 fp.2

/-- Number of positions whose guess letter is `c` and whose pattern mark is
not Absent (i.e. Hit or Present). -/
def marked_count (c : Char) (pat guess : List Char) : Nat :=
  (pat.zip guess).countP (fun q => decide (q.1 ≠ 'x' ∧ q.2 = c))

/-- `WordleSolver.filter_words(guess, pattern, word_pool)`. -/
def filter_words (guess pattern : List Char) (word_pool : Finset Word) : Finset Word :=
  word_pool.filter (fun word => get_pattern guess word = pattern)

/-- The state of a `WordleSolver` instance.  `letter_freq` models the Python
dict together with the `.get(c, 0)` default; `word_frequencies` is the bot-mode
frequency dict. -/
structure WordleSolver where
  hard_mode : Bool
  bot_mode : Bool
  all_words : List Word
  solutions_list : List Word
  word_frequencies : Word → Option Nat
  letter_freq : Char → ℝ
  possible_answers : Finset Word
  guesses_made : List (Word × Word)

/-- `WordleSolver.apply_guess(guess, pattern)`.  Python mutates `self` and
returns a count or raises `ValueError`; here the new state is returned
alongside `Except.ok count` or, on a validation failure, the old state
unchanged alongside the error message. -/
def apply_guess (s : WordleSolver) (guess pattern : List Char) :
    WordleSolver × Except String Nat :=
  if ¬((py_norm guess).length = 5 ∧ py_isalpha (py_norm guess) = true) then
    (s, Except.error "Guess must be exactly 5 letters")
  else if ¬((py_norm pattern).length = 5 ∧
      ∀ c ∈ py_norm pattern, c = 'g' ∨ c = 'y' ∨ c = 'x') then
    (s, Except.error "Pattern must be 5 characters of g/y/x")
  else
    ({ s with
        guesses_made := s.guesses_made ++ [(py_norm guess, py_norm pattern)]
        possible_answers :=
          filter_words (py_norm guess) (py_norm pattern) s.possible_answers },
      Except.ok (filter_words (py_norm guess) (py_norm pattern) s.possible_answers).card)

/-- `WordleSolver.reset()`. -/
def reset (s : WordleSolver) : WordleSolver :=
  if s.bot_mode = true ∧ s.solutions_list ≠ [] then
    { s with possible_answers := s.solutions_list.toFinset, guesses_made := [] }
  else
    { s with possible_answers := s.all_words.toFinset, guesses_made := [] }

/-- Well-formedness of the (normalised) guess, exactly the first validation
check of `apply_guess`. -/
def valid_guess (guess : List Char) : Prop :=
  (py_norm guess).length = 5 ∧ py_isalpha (py_norm guess) = true

/-- Well-formedness of the (normalised) pattern, exactly the second validation
check of `apply_guess`. -/
def valid_pattern (pattern : List Char) : Prop :=
  (py_norm pattern).length = 5 ∧ ∀ c ∈ py_norm pattern, c = 'g' ∨ c = 'y' ∨ c = 'x'

instance : DecidablePred valid_guess := fun _ => by
  unfold valid_guess; infer_instance

instance : DecidablePred valid_pattern := fun _ => by
  unfold valid_pattern; infer_instance

/-- An entry of a recommendation list: `(word, primary score, secondary score,
is_possible_answer)`. -/
abbrev GuessEntry := Word × ℝ × ℝ × Bool

/-- `WordleSolver.calculate_entropy(guess, word_pool)`: Shannon entropy of the
pattern partition the guess induces on the pool. -/
noncomputable def calculate_entropy (guess : List Char) (word_pool : Finset Word) : ℝ :=
  if word_pool = ∅ then 0
  else
    ∑ p ∈ word_pool.image (get_pattern guess),
      -(((word_pool.filter (fun w => get_pattern guess w = p)).card : ℝ) / word_pool.card) *
        Real.logb 2
          (((word_pool.filter (fun w => get_pattern guess w = p)).card : ℝ) / word_pool.card)

/-- `WordleSolver.calculate_expected_remaining(guess, word_pool)`:
`Σ c² / n` over the same pattern partition. -/
noncomputable def calculate_expected_remaining (guess : List Char)
    (word_pool : Finset Word) : ℝ :=
  if word_pool = ∅ then 0
  else
    (∑ p ∈ word_pool.image (get_pattern guess),
        ((word_pool.filter (fun w => get_pattern guess w = p)).card : ℝ) *
          ((word_pool.filter (fun w => get_pattern guess w = p)).card : ℝ)) /
      word_pool.card

/-- `WordleSolver.get_word_score(word)`: log-scaled commonality in bot mode
when the word has a recorded frequency, otherwise the sum of the letter
frequencies of the word's distinct letters. -/
noncomputable def get_word_score (s : WordleSolver) (word : Word) : ℝ :=
  match s.bot_mode, s.word_frequencies word with
  | true, some freq => Real.logb 10 ((freq : ℝ) + 1) / 10
  | _, _ => ∑ c ∈ word.toFinset, s.letter_freq c

/-- Python's unary minus on a `bool` sort-key component: `-True = -1`,
`-False = 0`. -/
def poss_neg (b : Bool) : ℝ :=
  if b then -1 else 0

/-- The sort key of `get_best_guess`: `(-entropy, -is_possible, expected,
-word_score)`, compared lexicographically as in Python tuple comparison. -/
noncomputable def ent_key (s : WordleSolver) (e : GuessEntry) : ℝ ×ₗ (ℝ ×ₗ (ℝ ×ₗ ℝ)) :=
  toLex (-e.2.1, toLex (poss_neg e.2.2.2, toLex (e.2.2.1, -(get_word_score s e.1))))

/-- Ascending comparison on `ent_key`, the order used by the stable sort in
`get_best_guess`. -/
def ent_le (s : WordleSolver) (a b : GuessEntry) : Prop :=
  ent_key s a ≤ ent_key s b

/-- The entry `get_best_guess` builds for one candidate word. -/
noncomputable def ent_entry (s : WordleSolver) (w : Word) : GuessEntry :=
  (w, calculate_entropy w s.possible_answers,
    calculate_expected_remaining w s.possible_answers,
    decide (w ∈ s.possible_answers))

/-- The sort key of `get_best_guess` as a function of the candidate word. -/
noncomputable def ent_word_key (s : WordleSolver) (w : Word) : ℝ ×ₗ (ℝ ×ₗ (ℝ ×ₗ ℝ)) :=
  ent_key s (ent_entry s w)

/-- The sort key of `get_best_guess_bot`: `(expected, -is_possible,
-freq_score)`. -/
def bot_key (e : GuessEntry) : ℝ ×ₗ (ℝ ×ₗ ℝ) :=
  toLex (e.2.1, toLex (poss_neg e.2.2.2, -e.2.2.1))

/-- Ascending comparison on `bot_key`. -/
def bot_main_le (a b : GuessEntry) : Prop :=
  bot_key a ≤ bot_key b

/-- The entry `get_best_guess_bot` builds for one candidate word. -/
noncomputable def bot_entry (s : WordleSolver) (w : Word) : GuessEntry :=
  (w, calculate_expected_remaining w s.possible_answers,
    get_word_score s w,
    decide (w ∈ s.possible_answers))

/-- The sort key of `get_best_guess_bot` as a function of the candidate
word. -/
noncomputable def bot_word_key (s : WordleSolver) (w : Word) : ℝ ×ₗ (ℝ ×ₗ ℝ) :=
  bot_key (bot_entry s w)

/-- The key `lambda x: -x[2]` used by the two-candidate shortcut of
`get_best_guess_bot` (sort by frequency score, descending). -/
def bot_two_le (a b : GuessEntry) : Prop :=
  -a.2.2.1 ≤ -b.2.2.1

/-- `WordleSolver.get_best_guess(top_n)`.  `pool_enum` is the iteration order
of the `set` `self.possible_answers`; `cand_enum` is the iteration order of
`candidates` (`self.possible_answers` in hard mode, else
`set(self.all_words)`).  The Python `list.sort` is a stable ascending sort by
the key tuple, modelled by `List.insertionSort`. -/
noncomputable def get_best_guess (s : WordleSolver) (pool_enum cand_enum : List Word)
    (top_n : Nat) : List GuessEntry :=
  if s.possible_answers = ∅ then []
  else if s.possible_answers.card = 1 then
    [(pool_enum.headI, 0, 1, true)]
  else if s.possible_answers.card = 2 then
    pool_enum.map (fun w => (w, 1, 1, true))
  else
    letI : DecidableRel (ent_le s) := fun _ _ => Classical.propDecidable _
    ((cand_enum.map (ent_entry s)).insertionSort (ent_le s)).take top_n

/-- `WordleSolver.get_best_guess_bot(top_n)`, with the same enumeration
conventions as `get_best_guess`. -/
noncomputable def get_best_guess_bot (s : WordleSolver) (pool_enum cand_enum : List Word)
    (top_n : Nat) : List GuessEntry :=
  if s.possible_answers = ∅ then []
  else if s.possible_answers.card = 1 then
    [(pool_enum.headI, 1, get_word_score s pool_enum.headI, true)]
  else if s.possible_answers.card = 2 then
    letI : DecidableRel bot_two_le := fun _ _ => Classical.propDecidable _
    (pool_enum.map (fun w => (w, 1, get_word_score s w, true))).insertionSort bot_two_le
  else
    letI : DecidableRel bot_main_le := fun _ _ => Classical.propDecidable _
    ((cand_enum.map (bot_entry s)).insertionSort bot_main_le).take top_n

/-! ### Pattern engine lemmas -/

theorem ms_of_nil : ms_of [] = 0 := rfl

theorem ms_of_cons_none (l : List (Option Char)) : ms_of (none :: l) = ms_of l := rfl

theorem ms_of_cons_some (a : Char) (l : List (Option Char)) :
    ms_of (some a :: l) = a ::ₘ ms_of l := by
  simp [ms_of]

theorem mem_ms_of {c : Char} {l : List (Option Char)} : c ∈ ms_of l ↔ some c ∈ l := by
  simp [ms_of, List.mem_filterMap]

theorem ms_of_remove_first {c : Char} :
    ∀ {l : List (Option Char)}, some c ∈ l → ms_of (remove_first c l) = (ms_of l).erase c := by
  intro l
  induction l with
  | nil => intro h; cases h
  | cons x xs ih =>
    intro h
    by_cases hx : x = some c
    · subst hx
      simp [remove_first, ms_of_cons_some, ms_of_cons_none]
    · rcases x with _ | d
      · have hm : some c ∈ xs := by
          rcases List.mem_cons.mp h with h' | h'
          · cases h'
          · exact h'
        simp [remove_first, hx, ms_of_cons_none, ih hm]
      · have hdc : d ≠ c := by
          intro hd; exact hx (by rw [hd])
        have hm : some c ∈ xs := by
          rcases List.mem_cons.mp h with h' | h'
          · exact absurd h'.symm hx
          · exact h'
        simp only [remove_first, if_neg hx, ms_of_cons_some, ih hm]
        rw [Multiset.erase_cons_tail_of_mem (mem_ms_of.mpr hm)]

theorem first_pass_spec :
    ∀ g a : List Char, (spec_first_pass g a).1 = (first_pass g a).1 ∧
      (spec_first_pass g a).2 = ms_of (first_pass g a).2
  | [], [] => by simp [first_pass, spec_first_pass, ms_of_nil]
  | [], _ :: _ => by simp [first_pass, spec_first_pass, ms_of_nil]
  | _ :: _, [] => by simp [first_pass, spec_first_pass, ms_of_nil]
  | g :: gs, a :: as => by
    have ih := first_pass_spec gs as
    by_cases hga : g = a
    · simp only [first_pass, spec_first_pass, if_pos hga, ms_of_cons_none]
      exact ⟨by rw [ih.1], ih.2⟩
    · simp only [first_pass, spec_first_pass, if_neg hga, ms_of_cons_some]
      exact ⟨by rw [ih.1], by rw [ih.2]⟩

theorem second_pass_spec :
    ∀ (g p : List Char) (chars : List (Option Char)),
      spec_second_pass g p (ms_of chars) = second_pass g p chars
  | [], p, chars => by cases p <;> rfl
  | _ :: _, [], _ => by rfl
  | g :: gs, p :: ps, chars => by
    by_cases hc : p = 'x' ∧ some g ∈ chars
    · have hm : p = 'x' ∧ g ∈ ms_of chars := ⟨hc.1, mem_ms_of.mpr hc.2⟩
      simp only [second_pass, spec_second_pass, if_pos hc, if_pos hm]
      rw [← ms_of_remove_first hc.2, second_pass_spec gs ps (remove_first g chars)]
    · have hm : ¬(p = 'x' ∧ g ∈ ms_of chars) := by
        intro h; exact hc ⟨h.1, mem_ms_of.mp h.2⟩
      simp only [second_pass, spec_second_pass, if_neg hc, if_neg hm]
      rw [second_pass_spec gs ps chars]

theorem get_pattern_eq_spec_pattern (g a : List Char) : get_pattern g a = spec_pattern g a := by
  show second_pass g (first_pass g a).1 (first_pass g a).2 =
    spec_second_pass g (spec_first_pass g a).1 (spec_first_pass g a).2
  rw [(first_pass_spec g a).1, (first_pass_spec g a).2, second_pass_spec]

theorem marked_count_nil_right (c : Char) (pat : List Char) : marked_count c pat [] = 0 := by
  cases pat <;> rfl

theorem marked_count_nil_left (c : Char) (g : List Char) : marked_count c [] g = 0 := rfl

theorem marked_count_cons (c p gc : Char) (pat g : List Char) :
    marked_count c (p :: pat) (gc :: g) =
      marked_count c pat g + if p ≠ 'x' ∧ gc = c then 1 else 0 := by
  simp only [marked_count, List.zip_cons_cons, List.countP_cons, decide_eq_true_eq]

theorem first_pass_cons_eq {g a : Char} (h : g = a) (gs as : List Char) :
    first_pass (g :: gs) (a :: as) =
      ('g' :: (first_pass gs as).1, none :: (first_pass gs as).2) := by
  simp [first_pass, h]

theorem first_pass_cons_ne {g a : Char} (h : g ≠ a) (gs as : List Char) :
    first_pass (g :: gs) (a :: as) =
      ('x' :: (first_pass gs as).1, some a :: (first_pass gs as).2) := by
  simp [first_pass, h]

theorem first_pass_marked (c : Char) :
    ∀ g a : List Char,
      marked_count c (first_pass g a).1 g + Multiset.count c (ms_of (first_pass g a).2) ≤
        a.count c
  | [], [] => by simp [first_pass, marked_count_nil_left, ms_of_nil]
  | [], a :: as => by simp [first_pass, marked_count_nil_left, ms_of_nil]
  | g :: gs, [] => by simp [first_pass, marked_count_nil_left, ms_of_nil]
  | g :: gs, a :: as => by
    have ih := first_pass_marked c gs as
    by_cases hga : g = a
    · rw [first_pass_cons_eq hga, marked_count_cons, ms_of_cons_none]
      simp only [List.count_cons, beq_iff_eq]
      by_cases hgc : g = c
      · rw [if_pos ⟨(by decide : ('g' : Char) ≠ 'x'), hgc⟩, if_pos (hga.symm.trans hgc)]
        omega
      · rw [if_neg (fun h => hgc h.2), if_neg (fun h : a = c => hgc (hga.trans h))]
        omega
    · rw [first_pass_cons_ne hga, marked_count_cons, ms_of_cons_some, Multiset.count_cons]
      simp only [List.count_cons, beq_iff_eq]
      rw [if_neg (fun h : ('x' : Char) ≠ 'x' ∧ g = c => h.1 rfl)]
      by_cases hac : a = c
      · rw [if_pos (hac.symm : c = a), if_pos hac]
        omega
      · rw [if_neg (fun h : c = a => hac h.symm), if_neg hac]
        omega

theorem second_pass_marked (c : Char) :
    ∀ (g pat : List Char) (chars : List (Option Char)),
      marked_count c (second_pass g pat chars) g ≤
        marked_count c pat g + Multiset.count c (ms_of chars)
  | [], pat, chars => by
    simp [second_pass, marked_count_nil_right]
  | g :: gs, [], chars => by
    simp [second_pass, marked_count_nil_left]
  | g :: gs, p :: ps, chars => by
    by_cases hc : p = 'x' ∧ some g ∈ chars
    · simp only [second_pass, if_pos hc, marked_count_cons]
      have hms : ms_of (remove_first g chars) = (ms_of chars).erase g :=
        ms_of_remove_first hc.2
      have ih := second_pass_marked c gs ps (remove_first g chars)
      rw [hms] at ih
      have hp : ¬(p ≠ 'x' ∧ g = c) := fun h => h.1 hc.1
      rw [if_neg hp]
      by_cases hgc : g = c
      · subst hgc
        have hy : ('y' : Char) ≠ 'x' ∧ g = g := ⟨by decide, rfl⟩
        rw [if_pos hy]
        have hmem : g ∈ ms_of chars := mem_ms_of.mpr hc.2
        have hcount : 1 ≤ Multiset.count g (ms_of chars) :=
          Multiset.one_le_count_iff_mem.mpr hmem
        have herase : Multiset.count g ((ms_of chars).erase g) =
            Multiset.count g (ms_of chars) - 1 := Multiset.count_erase_self g _
        rw [herase] at ih
        omega
      · have hy : ¬(('y' : Char) ≠ 'x' ∧ g = c) := fun h => hgc h.2
        rw [if_neg hy]
        have herase : Multiset.count c ((ms_of chars).erase g) =
            Multiset.count c (ms_of chars) :=
          Multiset.count_erase_of_ne (fun h => hgc h.symm) _
        rw [herase] at ih
        omega
    · simp only [second_pass, if_neg hc, marked_count_cons]
      have ih := second_pass_marked c gs ps chars
      omega

/-- C1: for every pair of words, `get_pattern` computes exactly the two-pass
multiset-consuming feedback of the spec (first pass: Hit at exact matches,
consuming the answer letter; second pass: Present only while the guessed
letter remains in the unconsumed answer multiset, else Absent), and in
particular for every letter the number of positions marked Hit or Present
never exceeds that letter's count in the answer. -/
theorem get_pattern_two_pass_multiset (g a : List Char) :
    get_pattern g a = spec_pattern g a ∧
    ∀ c : Char, marked_count c (get_pattern g a) g ≤ a.count c := by
  refine ⟨get_pattern_eq_spec_pattern g a, fun c => ?_⟩
  show marked_count c (second_pass g (first_pass g a).1 (first_pass g a).2) g ≤ a.count c
  calc marked_count c (second_pass g (first_pass g a).1 (first_pass g a).2) g
      ≤ marked_count c (first_pass g a).1 g +
          Multiset.count c (ms_of (first_pass g a).2) := second_pass_marked c g _ _
    _ ≤ a.count c := first_pass_marked c g a

/-- C2: `filter_words(guess, pattern, pool)` keeps exactly the words of the
pool whose feedback against the guess equals the given pattern. -/
theorem mem_filter_words (guess pattern : List Char) (pool : Finset Word) (w : Word) :
    w ∈ filter_words guess pattern pool ↔ w ∈ pool ∧ get_pattern guess w = pattern := by
  simp [filter_words]

/-- C3: every `apply_guess` call (in particular every successful one) replaces
the candidate pool by a subset of its previous value, so the pool never
grows. -/
theorem apply_guess_monotone (s : WordleSolver) (guess pattern : List Char) :
    (apply_guess s guess pattern).1.possible_answers ⊆ s.possible_answers ∧
    (apply_guess s guess pattern).1.possible_answers.card ≤ s.possible_answers.card := by
  unfold apply_guess
  split_ifs <;>
    first
      | exact ⟨Finset.Subset.refl _, le_refl _⟩
      | exact ⟨Finset.filter_subset _ _, Finset.card_filter_le _ _⟩

/-- C10: `apply_guess` (error or success) and `reset` leave the mode flags,
vocabulary, solutions list, frequency table and letter-frequency table
unchanged; `reset` empties the history and restores the pool to the curated
list (bot mode with a nonempty solutions list) or the full vocabulary. -/
theorem apply_guess_reset_frame (s : WordleSolver) (guess pattern : List Char) :
    ((apply_guess s guess pattern).1.hard_mode = s.hard_mode ∧
     (apply_guess s guess pattern).1.bot_mode = s.bot_mode ∧
     (apply_guess s guess pattern).1.all_words = s.all_words ∧
     (apply_guess s guess pattern).1.solutions_list = s.solutions_list ∧
     (apply_guess s guess pattern).1.word_frequencies = s.word_frequencies ∧
     (apply_guess s guess pattern).1.letter_freq = s.letter_freq) ∧
    ((reset s).hard_mode = s.hard_mode ∧
     (reset s).bot_mode = s.bot_mode ∧
     (reset s).all_words = s.all_words ∧
     (reset s).solutions_list = s.solutions_list ∧
     (reset s).word_frequencies = s.word_frequencies ∧
     (reset s).letter_freq = s.letter_freq ∧
     (reset s).guesses_made = [] ∧
     (reset s).possible_answers =
       (if s.bot_mode = true ∧ s.solutions_list ≠ [] then s.solutions_list.toFinset
        else s.all_words.toFinset)) := by
  constructor
  · unfold apply_guess
    split_ifs <;> exact ⟨rfl, rfl, rfl, rfl, rfl, rfl⟩
  · unfold reset
    split_ifs <;> exact ⟨rfl, rfl, rfl, rfl, rfl, rfl, rfl, rfl⟩

/-! ### Normalisation lemmas -/

theorem map_eq_self_of_fixed {f : Char → Char} :
    ∀ {l : List Char}, (∀ c ∈ l, f c = c) → l.map f = l
  | [], _ => rfl
  | x :: xs, h => by
    rw [List.map_cons, h x (List.mem_cons_self x xs),
      map_eq_self_of_fixed (fun c hc => h c (List.mem_cons_of_mem x hc))]

theorem dropWhile_eq_self_of_false {p : Char → Bool} :
    ∀ {l : List Char}, (∀ c ∈ l, p c = false) → l.dropWhile p = l
  | [], _ => rfl
  | x :: xs, h => by
    rw [List.dropWhile_cons, h x (List.mem_cons_self x xs)]
    simp

theorem py_strip_eq_self {s : List Char} (h : ∀ c ∈ s, py_isspace c = false) :
    py_strip s = s := by
  unfold py_strip
  rw [dropWhile_eq_self_of_false h,
    dropWhile_eq_self_of_false (fun c hc => h c (List.mem_reverse.mp hc)),
    List.reverse_reverse]

theorem py_norm_eq_self {s : List Char}
    (h : ∀ c ∈ s, Char.toLower c = c ∧ py_isspace c = false) : py_norm s = s := by
  unfold py_norm py_lower
  rw [map_eq_self_of_fixed (fun c hc => (h c hc).1)]
  exact py_strip_eq_self (fun c hc => (h c hc).2)

theorem first_pass_mem :
    ∀ g a : List Char, ∀ c ∈ (first_pass g a).1, c = 'g' ∨ c = 'x'
  | [], [] => by simp [first_pass]
  | [], _ :: _ => by simp [first_pass]
  | _ :: _, [] => by simp [first_pass]
  | g :: gs, a :: as => by
    intro c hc
    by_cases hga : g = a
    · rw [first_pass_cons_eq hga] at hc
      rcases List.mem_cons.mp hc with h | h
      · exact Or.inl h
      · exact first_pass_mem gs as c h
    · rw [first_pass_cons_ne hga] at hc
      rcases List.mem_cons.mp hc with h | h
      · exact Or.inr h
      · exact first_pass_mem gs as c h

theorem second_pass_mem :
    ∀ (g p : List Char) (chars : List (Option Char)),
      ∀ c ∈ second_pass g p chars, c ∈ p ∨ c = 'y'
  | [], p, chars => by
    intro c hc
    exact Or.inl hc
  | _ :: _, [], _ => by
    intro c hc
    exact Or.inl hc
  | g :: gs, p :: ps, chars => by
    intro c hc
    by_cases h : p = 'x' ∧ some g ∈ chars
    · rw [show second_pass (g :: gs) (p :: ps) chars =
          'y' :: second_pass gs ps (remove_first g chars) by
            simp [second_pass, h]] at hc
      rcases List.mem_cons.mp hc with h' | h'
      · exact Or.inr h'
      · rcases second_pass_mem gs ps (remove_first g chars) c h' with h'' | h''
        · exact Or.inl (List.mem_cons_of_mem p h'')
        · exact Or.inr h''
    · rw [show second_pass (g :: gs) (p :: ps) chars =
          p :: second_pass gs ps chars by simp [second_pass, h]] at hc
      rcases List.mem_cons.mp hc with h' | h'
      · exact Or.inl (h' ▸ List.mem_cons_self p ps)
      · rcases second_pass_mem gs ps chars c h' with h'' | h''
        · exact Or.inl (List.mem_cons_of_mem p h'')
        · exact Or.inr h''

theorem get_pattern_chars (g a : List Char) :
    ∀ c ∈ get_pattern g a, c = 'g' ∨ c = 'y' ∨ c = 'x' := by
  intro c hc
  rcases second_pass_mem g (first_pass g a).1 (first_pass g a).2 c hc with h | h
  · rcases first_pass_mem g a c h with h' | h'
    · exact Or.inl h'
    · exact Or.inr (Or.inr h')
  · exact Or.inr (Or.inl h)

theorem py_norm_get_pattern (g a : List Char) :
    py_norm (get_pattern g a) = get_pattern g a := by
  refine py_norm_eq_self (fun c hc => ?_)
  rcases get_pattern_chars g a c hc with h | h | h <;> subst h <;>
    exact ⟨by decide, by decide⟩

theorem mem_filter_words_iff (guess pattern : List Char) (pool : Finset Word) (w : Word) :
    w ∈ filter_words guess pattern pool ↔ w ∈ pool ∧ get_pattern guess w = pattern := by
  simp [filter_words]

/-- C5: if `w` is the true secret and lies in the current pool, applying the
observation `(g, get_pattern g w)` for any (case-normalised, per the data
model) probe word `g` never removes `w` from the pool — whether the call
succeeds (then `w` matches the filter by construction) or fails validation
(then the pool is untouched). -/
theorem apply_guess_keeps_secret (s : WordleSolver) (w g : Word)
    (hw : w ∈ s.possible_answers) (hg : py_norm g = g) :
    w ∈ (apply_guess s g (get_pattern g w)).1.possible_answers := by
  unfold apply_guess
  split_ifs <;>
    first
      | exact hw
      | exact (mem_filter_words_iff _ _ _ _).mpr
          ⟨hw, by rw [hg, py_norm_get_pattern]⟩

/-- Closed-instance witness for `apply_guess_keeps_secret`. -/
theorem apply_guess_keeps_secret_witness :
    (['c', 'r', 'a', 'n', 'e'] : Word) ∈
      (⟨false, false, [], [], fun _ => none, fun _ => 0,
        {['c', 'r', 'a', 'n', 'e']}, []⟩ : WordleSolver).possible_answers ∧
    py_norm ['s', 'l', 'a', 't', 'e'] = ['s', 'l', 'a', 't', 'e'] ∧
    (['c', 'r', 'a', 'n', 'e'] : Word) ∈
      (apply_guess
        (⟨false, false, [], [], fun _ => none, fun _ => 0,
          {['c', 'r', 'a', 'n', 'e']}, []⟩ : WordleSolver)
        ['s', 'l', 'a', 't', 'e']
        (get_pattern ['s', 'l', 'a', 't', 'e'] ['c', 'r', 'a', 'n', 'e'])).1.possible_answers :=
  ⟨by decide, by decide,
    apply_guess_keeps_secret _ _ _ (by decide) (by decide)⟩

/-- C4: `apply_guess` returns a validation error exactly when the normalised
guess is not five alphabetic letters or the normalised pattern is not five
characters of g/y/x; on an error no state is mutated, and on success exactly
one observation is appended, the pool is replaced by the filtered subset, and
its new size is returned. -/
theorem apply_guess_validation (s : WordleSolver) (guess pattern : List Char) :
    ((∃ e, (apply_guess s guess pattern).2 = Except.error e) ↔
      ¬(valid_guess guess ∧ valid_pattern pattern)) ∧
    ((∃ e, (apply_guess s guess pattern).2 = Except.error e) →
      (apply_guess s guess pattern).1 = s) ∧
    (valid_guess guess ∧ valid_pattern pattern →
      (apply_guess s guess pattern).1.guesses_made =
          s.guesses_made ++ [(py_norm guess, py_norm pattern)] ∧
        (apply_guess s guess pattern).1.possible_answers =
          filter_words (py_norm guess) (py_norm pattern) s.possible_answers ∧
        (apply_guess s guess pattern).2 =
          Except.ok ((filter_words (py_norm guess) (py_norm pattern)
            s.possible_answers).card)) := by
  unfold apply_guess valid_guess valid_pattern
  by_cases hvg : (py_norm guess).length = 5 ∧ py_isalpha (py_norm guess) = true
  · by_cases hvp : (py_norm pattern).length = 5 ∧
        ∀ c ∈ py_norm pattern, c = 'g' ∨ c = 'y' ∨ c = 'x'
    · rw [if_neg (not_not_intro hvg), if_neg (not_not_intro hvp)]
      refine ⟨⟨?_, ?_⟩, ?_, ?_⟩
      · rintro ⟨e, he⟩
        exact Except.noConfusion he
      · intro hcon
        exact absurd ⟨hvg, hvp⟩ hcon
      · rintro ⟨e, he⟩
        exact Except.noConfusion he
      · intro _
        exact ⟨rfl, rfl, rfl⟩
    · rw [if_neg (not_not_intro hvg), if_pos hvp]
      refine ⟨⟨fun _ h => hvp h.2, fun _ => ⟨_, rfl⟩⟩, fun _ => rfl,
        fun h => absurd h.2 hvp⟩
  · rw [if_pos hvg]
    exact ⟨⟨fun _ h => hvg h.1, fun _ => ⟨_, rfl⟩⟩, fun _ => rfl,
      fun h => absurd h.1 hvg⟩

/-- Closed-instance witness for `apply_guess_validation`: a malformed guess
(four letters) is rejected with the state unchanged, and a well-formed
observation appends exactly one history entry. -/
theorem apply_guess_validation_witness :
    ((apply_guess
        (⟨false, false, [], [], fun _ => none, fun _ => 0,
          {['c', 'r', 'a', 'n', 'e']}, []⟩ : WordleSolver)
        ['c', 'r', 'a', 'n'] ['g', 'g', 'g', 'g', 'g']).1 =
      (⟨false, false, [], [], fun _ => none, fun _ => 0,
        {['c', 'r', 'a', 'n', 'e']}, []⟩ : WordleSolver)) ∧
    ((apply_guess
        (⟨false, false, [], [], fun _ => none, fun _ => 0,
          {['c', 'r', 'a', 'n', 'e']}, []⟩ : WordleSolver)
        ['c', 'r', 'a', 'n', 'e'] ['g', 'g', 'g', 'g', 'g']).1.guesses_made =
      [(py_norm ['c', 'r', 'a', 'n', 'e'], py_norm ['g', 'g', 'g', 'g', 'g'])]) := by
  constructor
  · exact (apply_guess_validation _ ['c', 'r', 'a', 'n'] ['g', 'g', 'g', 'g', 'g']).2.1
      ⟨"Guess must be exactly 5 letters", by rfl⟩
  · exact ((apply_guess_validation _ ['c', 'r', 'a', 'n', 'e']
      ['g', 'g', 'g', 'g', 'g']).2.2 ⟨by decide, by decide⟩).1

/-! ### All-green pattern characterisation -/

theorem second_pass_cons_pos {g p : Char} {chars : List (Option Char)}
    (h : p = 'x' ∧ some g ∈ chars) (gs ps : List Char) :
    second_pass (g :: gs) (p :: ps) chars =
      'y' :: second_pass gs ps (remove_first g chars) := by
  simp [second_pass, h]

theorem second_pass_cons_neg {g p : Char} {chars : List (Option Char)}
    (h : ¬(p = 'x' ∧ some g ∈ chars)) (gs ps : List Char) :
    second_pass (g :: gs) (p :: ps) chars = p :: second_pass gs ps chars := by
  simp only [second_pass, if_neg h]

theorem remove_first_cons_none (c : Char) (chars : List (Option Char)) :
    remove_first c (none :: chars) = none :: remove_first c chars := by
  simp [remove_first]

theorem second_pass_skip_none :
    ∀ (g p : List Char) (chars : List (Option Char)),
      second_pass g p (none :: chars) = second_pass g p chars
  | [], p, chars => rfl
  | _ :: _, [], _ => rfl
  | g :: gs, p :: ps, chars => by
    by_cases h : p = 'x' ∧ some g ∈ chars
    · rw [second_pass_cons_pos ⟨h.1, List.mem_cons_of_mem _ h.2⟩,
        remove_first_cons_none, second_pass_skip_none gs ps (remove_first g chars),
        ← second_pass_cons_pos h]
    · have h' : ¬(p = 'x' ∧ some g ∈ (none :: chars)) := fun hc =>
        h ⟨hc.1, by
          rcases List.mem_cons.mp hc.2 with h'' | h''
          · exact Option.noConfusion h''
          · exact h''⟩
      rw [second_pass_cons_neg h', second_pass_skip_none gs ps chars,
        ← second_pass_cons_neg h]

theorem first_pass_self :
    ∀ w : List Char,
      first_pass w w = (List.replicate w.length 'g', List.replicate w.length none)
  | [] => rfl
  | x :: xs => by
    rw [first_pass_cons_eq rfl, first_pass_self xs]
    simp [List.replicate_succ]

theorem second_pass_all_green :
    ∀ (g ps : List Char) (chars : List (Option Char)),
      (∀ c ∈ ps, c = 'g') → second_pass g ps chars = ps
  | [], _, _, _ => rfl
  | _ :: _, [], _, _ => rfl
  | g :: gs, p :: ps, chars, h => by
    have hp : p = 'g' := h p (List.mem_cons_self p ps)
    have hng : ¬(p = 'x' ∧ some g ∈ chars) := fun hc => by
      rw [hp] at hc
      exact absurd hc.1 (by decide)
    rw [second_pass_cons_neg hng,
      second_pass_all_green gs ps chars (fun c hc => h c (List.mem_cons_of_mem _ hc))]

theorem get_pattern_self (w : List Char) :
    get_pattern w w = List.replicate w.length 'g' := by
  show second_pass w (first_pass w w).1 (first_pass w w).2 = _
  rw [first_pass_self]
  exact second_pass_all_green _ _ _ (fun c hc => List.eq_of_mem_replicate hc)

theorem get_pattern_eq_replicate_iff :
    ∀ g a : List Char, g.length = a.length →
      (get_pattern g a = List.replicate g.length 'g' ↔ g = a)
  | [], [], _ => by simp [get_pattern, first_pass, second_pass]
  | [], _ :: _, h => by simp at h
  | _ :: _, [], h => by simp at h
  | g :: gs, a :: as, h => by
    have hlen : gs.length = as.length := by simpa using h
    by_cases hga : g = a
    · subst hga
      have hcons : get_pattern (g :: gs) (g :: as) = 'g' :: get_pattern gs as := by
        show second_pass (g :: gs) (first_pass (g :: gs) (g :: as)).1
          (first_pass (g :: gs) (g :: as)).2 = _
        rw [first_pass_cons_eq rfl,
          second_pass_cons_neg (fun hc => absurd hc.1 (by decide)),
          second_pass_skip_none]
        rfl
      rw [hcons, List.length_cons, List.replicate_succ]
      simp only [List.cons.injEq, true_and]
      exact get_pattern_eq_replicate_iff gs as hlen
    · have hhead : ∃ c t, get_pattern (g :: gs) (a :: as) = c :: t ∧ c ≠ 'g' := by
        show ∃ c t, second_pass (g :: gs) (first_pass (g :: gs) (a :: as)).1
          (first_pass (g :: gs) (a :: as)).2 = c :: t ∧ c ≠ 'g'
        rw [first_pass_cons_ne hga]
        by_cases hmem : some g ∈ (some a :: (first_pass gs as).2)
        · rw [second_pass_cons_pos ⟨rfl, hmem⟩]
          exact ⟨'y', _, rfl, by decide⟩
        · rw [second_pass_cons_neg (fun hc => hmem hc.2)]
          exact ⟨'x', _, rfl, by decide⟩
      obtain ⟨c, t, hct, hcg⟩ := hhead
      rw [hct, List.length_cons, List.replicate_succ]
      simp [hcg, hga]

/-- C6 counterexample: a solver state whose pool (here `{slate}`) does not
contain the secret (`crane`); applying `(crane, get_pattern crane crane)` —
the all-Hit observation — leaves a pool of size 0, not 1, so the claim fails
for arbitrary solver states. -/
theorem apply_self_all_green_counterexample :
    (apply_guess
      (⟨false, false, [], [], fun _ => none, fun _ => 0,
        {['s', 'l', 'a', 't', 'e']}, []⟩ : WordleSolver)
      ['c', 'r', 'a', 'n', 'e']
      (get_pattern ['c', 'r', 'a', 'n', 'e']
        ['c', 'r', 'a', 'n', 'e'])).1.possible_answers.card ≠ 1 := by
  decide

/-- C6 (amended): provided the secret lies in the current candidate pool and
the pool consists of five-letter words (the data model's Words, case
normalised), applying the observation `(secret, get_pattern secret secret)` —
the all-Hit pattern — yields the pool `{secret}` of size exactly 1. -/
theorem apply_self_all_green_singleton (s : WordleSolver) (secret : Word)
    (hmem : secret ∈ s.possible_answers)
    (hpool : ∀ w ∈ s.possible_answers, w.length = 5)
    (hlen : secret.length = 5)
    (halpha : py_isalpha secret = true)
    (hnorm : py_norm secret = secret) :
    (apply_guess s secret (get_pattern secret secret)).1.possible_answers = {secret} ∧
    (apply_guess s secret (get_pattern secret secret)).2 = Except.ok 1 := by
  have hpat : get_pattern secret secret = List.replicate 5 'g' := by
    rw [get_pattern_self, hlen]
  have hvp_norm : py_norm (get_pattern secret secret) = get_pattern secret secret :=
    py_norm_get_pattern _ _
  have hg1 : (py_norm secret).length = 5 := by rw [hnorm]; exact hlen
  have hg2 : py_isalpha (py_norm secret) = true := by rw [hnorm]; exact halpha
  have hp1 : (py_norm (get_pattern secret secret)).length = 5 := by
    rw [hvp_norm, hpat, List.length_replicate]
  have hp2 : ∀ c ∈ py_norm (get_pattern secret secret),
      c = 'g' ∨ c = 'y' ∨ c = 'x' := by
    rw [hvp_norm]
    exact get_pattern_chars _ _
  have hfilter : filter_words (py_norm secret) (py_norm (get_pattern secret secret))
      s.possible_answers = {secret} := by
    rw [hnorm, hvp_norm]
    ext w
    rw [mem_filter_words_iff, Finset.mem_singleton]
    constructor
    · rintro ⟨hwmem, hweq⟩
      rw [hpat] at hweq
      have hiff := get_pattern_eq_replicate_iff secret w
        (by rw [hlen, hpool w hwmem])
      rw [hlen] at hiff
      exact (hiff.mp hweq).symm
    · rintro rfl
      exact ⟨hmem, rfl⟩
  unfold apply_guess
  rw [if_neg (not_not_intro ⟨hg1, hg2⟩), if_neg (not_not_intro ⟨hp1, hp2⟩)]
  refine ⟨hfilter, ?_⟩
  show Except.ok (filter_words (py_norm secret) (py_norm (get_pattern secret secret))
    s.possible_answers).card = Except.ok 1
  rw [hfilter, Finset.card_singleton]

/-- Closed-instance witness for `apply_self_all_green_singleton`. -/
theorem apply_self_all_green_singleton_witness :
    (apply_guess
      (⟨false, false, [], [], fun _ => none, fun _ => 0,
        {['c', 'r', 'a', 'n', 'e'], ['s', 'l', 'a', 't', 'e']}, []⟩ : WordleSolver)
      ['c', 'r', 'a', 'n', 'e']
      (get_pattern ['c', 'r', 'a', 'n', 'e']
        ['c', 'r', 'a', 'n', 'e'])).1.possible_answers = {['c', 'r', 'a', 'n', 'e']} ∧
    (apply_guess
      (⟨false, false, [], [], fun _ => none, fun _ => 0,
        {['c', 'r', 'a', 'n', 'e'], ['s', 'l', 'a', 't', 'e']}, []⟩ : WordleSolver)
      ['c', 'r', 'a', 'n', 'e']
      (get_pattern ['c', 'r', 'a', 'n', 'e']
        ['c', 'r', 'a', 'n', 'e'])).2 = Except.ok 1 :=
  apply_self_all_green_singleton _ _ (by decide) (by decide) (by decide) (by decide)
    (by decide)

theorem nodup_toFinset_singleton {l : List Word} {a : Word}
    (hnd : l.Nodup) (hf : l.toFinset = {a}) : l = [a] := by
  cases l with
  | nil =>
    rw [List.toFinset_nil] at hf
    exact absurd hf.symm (Finset.singleton_ne_empty a)
  | cons x xs =>
    have hx : x = a := by
      have hmem : x ∈ ({a} : Finset Word) := hf ▸ (by simp)
      simpa using hmem
    subst hx
    have hxs : xs = [] := by
      rcases List.eq_nil_or_concat xs with hnil | ⟨ys, y, hy⟩
      · exact hnil
      · have hymem : y ∈ xs := by rw [hy]; simp
        have hyx : y = x := by
          have : y ∈ ({x} : Finset Word) := hf ▸ (by simp [hymem])
          simpa using this
        exact absurd (hyx ▸ hymem) (List.nodup_cons.mp hnd).1
    rw [hxs]

/-- C7: when exactly one candidate `w` remains, both ranking operations
short-circuit to the single entry for `w` — `(w, 0, 1, true)` in entropy mode
(zero bits of uncertainty, expected remaining 1) and
`(w, 1, get_word_score w, true)` in bot mode (expected remaining 1) — for
any vocabulary enumeration `cand_enum`, i.e. without enumerating the
vocabulary. -/
theorem single_candidate_shortcut (s : WordleSolver) (w : Word)
    (pool_enum cand_enum : List Word) (top_n : Nat)
    (hpool : s.possible_answers = {w})
    (hnd : pool_enum.Nodup) (hpf : pool_enum.toFinset = s.possible_answers) :
    get_best_guess s pool_enum cand_enum top_n = [(w, 0, 1, true)] ∧
    get_best_guess_bot s pool_enum cand_enum top_n =
      [(w, 1, get_word_score s w, true)] := by
  have hpe : pool_enum = [w] := nodup_toFinset_singleton hnd (by rw [hpf, hpool])
  have hne : ¬s.possible_answers = ∅ := by
    rw [hpool]
    exact Finset.singleton_ne_empty w
  have hcard : s.possible_answers.card = 1 := by
    rw [hpool]
    exact Finset.card_singleton w
  constructor
  · unfold get_best_guess
    rw [if_neg hne, if_pos hcard, hpe]
    rfl
  · unfold get_best_guess_bot
    rw [if_neg hne, if_pos hcard, hpe]
    rfl

/-- Closed-instance witness for `single_candidate_shortcut`. -/
theorem single_candidate_shortcut_witness :
    get_best_guess
      (⟨false, false, [], [], fun _ => none, fun _ => 0,
        {['c', 'r', 'a', 'n', 'e']}, []⟩ : WordleSolver)
      [['c', 'r', 'a', 'n', 'e']] [] 3 = [(['c', 'r', 'a', 'n', 'e'], 0, 1, true)] ∧
    get_best_guess_bot
      (⟨false, false, [], [], fun _ => none, fun _ => 0,
        {['c', 'r', 'a', 'n', 'e']}, []⟩ : WordleSolver)
      [['c', 'r', 'a', 'n', 'e']] [] 3 =
      [(['c', 'r', 'a', 'n', 'e'], 1,
        get_word_score
          (⟨false, false, [], [], fun _ => none, fun _ => 0,
            {['c', 'r', 'a', 'n', 'e']}, []⟩ : WordleSolver)
          ['c', 'r', 'a', 'n', 'e'], true)] :=
  single_candidate_shortcut _ _ _ _ _ (by decide) (by decide) (by decide)

/-! ### Entropy lemmas -/

theorem fiber_card_pos {g : List Char} {pool : Finset Word} {p : List Char}
    (hp : p ∈ pool.image (get_pattern g)) :
    0 < (pool.filter (fun w => get_pattern g w = p)).card := by
  obtain ⟨w, hw, hwp⟩ := Finset.mem_image.mp hp
  exact Finset.card_pos.mpr ⟨w, Finset.mem_filter.mpr ⟨hw, hwp⟩⟩

theorem sum_fiber_card (g : List Char) (pool : Finset Word) :
    ∑ p ∈ pool.image (get_pattern g),
      (pool.filter (fun w => get_pattern g w = p)).card = pool.card :=
  (Finset.card_eq_sum_card_image (get_pattern g) pool).symm

theorem calculate_entropy_eq (g : List Char) (pool : Finset Word) (hn : 1 ≤ pool.card) :
    calculate_entropy g pool =
      Real.logb 2 (pool.card : ℝ) -
        (1 / (pool.card : ℝ)) *
          ∑ p ∈ pool.image (get_pattern g),
            ((pool.filter (fun w => get_pattern g w = p)).card : ℝ) *
              Real.logb 2 ((pool.filter (fun w => get_pattern g w = p)).card : ℝ) := by
  have hne : pool ≠ ∅ := by
    intro h
    rw [h] at hn
    simp at hn
  have hn0 : (0 : ℝ) < (pool.card : ℝ) :=
    Nat.cast_pos.mpr (Nat.lt_of_lt_of_le Nat.zero_lt_one hn)
  have hN0 : (pool.card : ℝ) ≠ 0 := ne_of_gt hn0
  unfold calculate_entropy
  rw [if_neg hne]
  have hterm : ∀ p ∈ pool.image (get_pattern g),
      -(((pool.filter (fun w => get_pattern g w = p)).card : ℝ) / (pool.card : ℝ)) *
          Real.logb 2
            (((pool.filter (fun w => get_pattern g w = p)).card : ℝ) / (pool.card : ℝ)) =
        (((pool.filter (fun w => get_pattern g w = p)).card : ℝ) / (pool.card : ℝ)) *
            Real.logb 2 (pool.card : ℝ) -
          (1 / (pool.card : ℝ)) *
            (((pool.filter (fun w => get_pattern g w = p)).card : ℝ) *
              Real.logb 2 ((pool.filter (fun w => get_pattern g w = p)).card : ℝ)) := by
    intro p hp
    have hc0 : ((pool.filter (fun w => get_pattern g w = p)).card : ℝ) ≠ 0 :=
      ne_of_gt (Nat.cast_pos.mpr (fiber_card_pos hp))
    rw [Real.logb_div hc0 hN0]
    ring
  rw [Finset.sum_congr rfl hterm, Finset.sum_sub_distrib, ← Finset.mul_sum,
    ← Finset.sum_mul]
  have hsum1 : ∑ p ∈ pool.image (get_pattern g),
      (((pool.filter (fun w => get_pattern g w = p)).card : ℝ) / (pool.card : ℝ)) = 1 := by
    rw [← Finset.sum_div]
    have hcast : ∑ p ∈ pool.image (get_pattern g),
        ((pool.filter (fun w => get_pattern g w = p)).card : ℝ) = (pool.card : ℝ) := by
      rw [← Nat.cast_sum]
      exact_mod_cast congrArg (Nat.cast : ℕ → ℝ) (sum_fiber_card g pool)
    rw [hcast]
    exact div_self hN0
  rw [hsum1, one_mul]

/-- C9: for a nonempty pool of size `n` the entropy score of any guess is at
most `log2 n`, with equality exactly when every pattern class of the induced
partition is a singleton (so the partition is `n` singletons); an empty pool
scores 0. -/
theorem calculate_entropy_bound (g : List Char) (pool : Finset Word) :
    (1 ≤ pool.card →
      calculate_entropy g pool ≤ Real.logb 2 (pool.card : ℝ) ∧
      (calculate_entropy g pool = Real.logb 2 (pool.card : ℝ) ↔
        ∀ p ∈ pool.image (get_pattern g),
          (pool.filter (fun w => get_pattern g w = p)).card = 1)) ∧
    calculate_entropy g ∅ = 0 := by
  constructor
  · intro hn
    have hn0 : (0 : ℝ) < (pool.card : ℝ) :=
      Nat.cast_pos.mpr (Nat.lt_of_lt_of_le Nat.zero_lt_one hn)
    have hid := calculate_entropy_eq g pool hn
    have hterm_nonneg : ∀ p ∈ pool.image (get_pattern g),
        0 ≤ ((pool.filter (fun w => get_pattern g w = p)).card : ℝ) *
          Real.logb 2 ((pool.filter (fun w => get_pattern g w = p)).card : ℝ) := by
      intro p hp
      have hc1 : (1 : ℝ) ≤ ((pool.filter (fun w => get_pattern g w = p)).card : ℝ) := by
        exact_mod_cast fiber_card_pos hp
      exact mul_nonneg (le_trans zero_le_one hc1) (Real.logb_nonneg one_lt_two hc1)
    have hS : 0 ≤ ∑ p ∈ pool.image (get_pattern g),
        ((pool.filter (fun w => get_pattern g w = p)).card : ℝ) *
          Real.logb 2 ((pool.filter (fun w => get_pattern g w = p)).card : ℝ) :=
      Finset.sum_nonneg hterm_nonneg
    have hfac : 0 < 1 / (pool.card : ℝ) := by positivity
    constructor
    · rw [hid]
      nlinarith
    · rw [hid]
      constructor
      · intro heq
        have hS0 : ∑ p ∈ pool.image (get_pattern g),
            ((pool.filter (fun w => get_pattern g w = p)).card : ℝ) *
              Real.logb 2 ((pool.filter (fun w => get_pattern g w = p)).card : ℝ) = 0 := by
          have h1 : (1 / (pool.card : ℝ)) *
              ∑ p ∈ pool.image (get_pattern g),
                ((pool.filter (fun w => get_pattern g w = p)).card : ℝ) *
                  Real.logb 2
                    ((pool.filter (fun w => get_pattern g w = p)).card : ℝ) = 0 := by
            linarith
          rcases mul_eq_zero.mp h1 with h | h
          · exact absurd h (ne_of_gt hfac)
          · exact h
        intro p hp
        have hzero := (Finset.sum_eq_zero_iff_of_nonneg hterm_nonneg).mp hS0 p hp
        have hcpos : 0 < (pool.filter (fun w => get_pattern g w = p)).card :=
          fiber_card_pos hp
        rcases mul_eq_zero.mp hzero with h | h
        · exfalso
          have : (pool.filter (fun w => get_pattern g w = p)).card = 0 := by
            exact_mod_cast h
          omega
        · rcases Real.logb_eq_zero.mp h with h' | h' | h' | h' | h' | h'
          · norm_num at h'
          · norm_num at h'
          · norm_num at h'
          · exfalso
            have : (pool.filter (fun w => get_pattern g w = p)).card = 0 := by
              exact_mod_cast h'
            omega
          · exact_mod_cast h'
          · exfalso
            have hge : (0 : ℝ) ≤
                ((pool.filter (fun w => get_pattern g w = p)).card : ℝ) :=
              Nat.cast_nonneg _
            rw [h'] at hge
            norm_num at hge
      · intro hall
        have hS0 : ∑ p ∈ pool.image (get_pattern g),
            ((pool.filter (fun w => get_pattern g w = p)).card : ℝ) *
              Real.logb 2 ((pool.filter (fun w => get_pattern g w = p)).card : ℝ) = 0 := by
          refine Finset.sum_eq_zero (fun p hp => ?_)
          rw [hall p hp]
          simp
        rw [hS0, mul_zero, sub_zero]
  · unfold calculate_entropy
    rw [if_pos rfl]

/-- Closed-instance witness for `calculate_entropy_bound`. -/
theorem calculate_entropy_bound_witness :
    1 ≤ ({['c', 'r', 'a', 'n', 'e']} : Finset Word).card ∧
    calculate_entropy ['s', 'l', 'a', 't', 'e'] {['c', 'r', 'a', 'n', 'e']} ≤
      Real.logb 2 ((({['c', 'r', 'a', 'n', 'e']} : Finset Word).card : ℕ) : ℝ) :=
  ⟨by decide,
    ((calculate_entropy_bound ['s', 'l', 'a', 't', 'e'] {['c', 'r', 'a', 'n', 'e']}).1
      (by decide)).1⟩

/-! ### Sorting determinism -/

theorem sorted_perm_eq_of_nodup_keys {α β : Type} [LinearOrder β] (key : α → β) :
    ∀ l₁ l₂ : List α, l₁.Perm l₂ →
      l₁.Sorted (fun a b => key a ≤ key b) →
      l₂.Sorted (fun a b => key a ≤ key b) →
      (l₁.map key).Nodup → l₁ = l₂
  | [], l₂, hp, _, _, _ => (hp.symm.eq_nil).symm
  | a :: t₁, [], hp, _, _, _ => List.noConfusion hp.eq_nil
  | a :: t₁, b :: t₂, hp, hs₁, hs₂, hnd => by
    by_cases hab : a = b
    · subst hab
      have hpt := hp.cons_inv
      have hs₁' := (List.sorted_cons.mp hs₁).2
      have hs₂' := (List.sorted_cons.mp hs₂).2
      have hnd' : (t₁.map key).Nodup := by
        rw [List.map_cons] at hnd
        exact (List.nodup_cons.mp hnd).2
      rw [sorted_perm_eq_of_nodup_keys key t₁ t₂ hpt hs₁' hs₂' hnd']
    · exfalso
      have hat₂ : a ∈ t₂ := by
        have hmem : a ∈ b :: t₂ := hp.subset (List.mem_cons_self a t₁)
        rcases List.mem_cons.mp hmem with h | h
        · exact absurd h hab
        · exact h
      have hbt₁ : b ∈ t₁ := by
        have hmem : b ∈ a :: t₁ := hp.symm.subset (List.mem_cons_self b t₂)
        rcases List.mem_cons.mp hmem with h | h
        · exact absurd h.symm hab
        · exact h
      have h₁ : key a ≤ key b := (List.sorted_cons.mp hs₁).1 b hbt₁
      have h₂ : key b ≤ key a := (List.sorted_cons.mp hs₂).1 a hat₂
      have hk : key a = key b := le_antisymm h₁ h₂
      rw [List.map_cons] at hnd
      exact (List.nodup_cons.mp hnd).1 (by
        rw [hk]
        exact List.mem_map_of_mem key hbt₁)

theorem insertionSort_eq_of_perm_of_nodup {α β : Type} [LinearOrder β] (key : α → β)
    (r : α → α → Prop) [DecidableRel r] (hr : ∀ a b, r a b ↔ key a ≤ key b)
    (l₁ l₂ : List α) (hperm : l₁.Perm l₂) (hnd : (l₁.map key).Nodup) :
    List.insertionSort r l₁ = List.insertionSort r l₂ := by
  haveI ht : IsTotal α r := ⟨fun a b => by
    rw [hr, hr]
    exact le_total _ _⟩
  haveI htr : IsTrans α r := ⟨fun a b c hab hbc => by
    rw [hr] at hab hbc ⊢
    exact le_trans hab hbc⟩
  have hs₁ : (List.insertionSort r l₁).Sorted (fun a b => key a ≤ key b) :=
    (List.sorted_insertionSort r l₁).imp (fun h => (hr _ _).mp h)
  have hs₂ : (List.insertionSort r l₂).Sorted (fun a b => key a ≤ key b) :=
    (List.sorted_insertionSort r l₂).imp (fun h => (hr _ _).mp h)
  have hperm' : (List.insertionSort r l₁).Perm (List.insertionSort r l₂) :=
    (List.perm_insertionSort r l₁).trans (hperm.trans (List.perm_insertionSort r l₂).symm)
  have hnd' : ((List.insertionSort r l₁).map key).Nodup :=
    (((List.perm_insertionSort r l₁).map key).nodup_iff).mpr hnd
  exact sorted_perm_eq_of_nodup_keys key _ _ hperm' hs₁ hs₂ hnd'

/-- C8 counterexample: the two-remaining-candidates shortcut of
`get_best_guess` returns the pool in its set-iteration order without sorting,
so two enumerations of the same two-word pool, with the same vocabulary, mode
and `top_n`, give different ordered outputs. -/
theorem ranking_iteration_order_counterexample :
    ([['c', 'r', 'a', 'n', 'e'], ['s', 'l', 'a', 't', 'e']] : List Word).toFinset =
      (⟨false, false, [], [], fun _ => none, fun _ => 0,
        {['c', 'r', 'a', 'n', 'e'], ['s', 'l', 'a', 't', 'e']}, []⟩ :
          WordleSolver).possible_answers ∧
    ([['s', 'l', 'a', 't', 'e'], ['c', 'r', 'a', 'n', 'e']] : List Word).toFinset =
      (⟨false, false, [], [], fun _ => none, fun _ => 0,
        {['c', 'r', 'a', 'n', 'e'], ['s', 'l', 'a', 't', 'e']}, []⟩ :
          WordleSolver).possible_answers ∧
    get_best_guess
      (⟨false, false, [], [], fun _ => none, fun _ => 0,
        {['c', 'r', 'a', 'n', 'e'], ['s', 'l', 'a', 't', 'e']}, []⟩ : WordleSolver)
      [['c', 'r', 'a', 'n', 'e'], ['s', 'l', 'a', 't', 'e']] [] 10 ≠
    get_best_guess
      (⟨false, false, [], [], fun _ => none, fun _ => 0,
        {['c', 'r', 'a', 'n', 'e'], ['s', 'l', 'a', 't', 'e']}, []⟩ : WordleSolver)
      [['s', 'l', 'a', 't', 'e'], ['c', 'r', 'a', 'n', 'e']] [] 10 := by
  refine ⟨by decide, by decide, ?_⟩
  have hne : ¬(⟨false, false, [], [], fun _ => none, fun _ => 0,
      {['c', 'r', 'a', 'n', 'e'], ['s', 'l', 'a', 't', 'e']}, []⟩ :
        WordleSolver).possible_answers = ∅ := by decide
  have h1 : ¬(⟨false, false, [], [], fun _ => none, fun _ => 0,
      {['c', 'r', 'a', 'n', 'e'], ['s', 'l', 'a', 't', 'e']}, []⟩ :
        WordleSolver).possible_answers.card = 1 := by decide
  have h2 : (⟨false, false, [], [], fun _ => none, fun _ => 0,
      {['c', 'r', 'a', 'n', 'e'], ['s', 'l', 'a', 't', 'e']}, []⟩ :
        WordleSolver).possible_answers.card = 2 := by decide
  simp only [get_best_guess, if_neg hne, if_neg h1, if_pos h2, List.map_cons,
    List.map_nil]
  intro h
  have hh := congrArg (fun l : List GuessEntry => l.headI.1) h
  simp only [List.headI] at hh
  exact absurd hh (by decide)

/-- C8 (amended): the ranking is a deterministic function of the pool, mode
and the iteration order of the unordered candidate set; it is independent of
that iteration order only when the sort keys are pairwise distinct, on the
main (sorted) enumeration paths.  (As stated the claim is false: the
two-remaining shortcut returns the pool in set-iteration order, see the
counterexample.)  For any two iteration orders of the same candidate set with
pairwise-distinct sort keys, both ranking functions return identical lists. -/
theorem ranking_reproducible_distinct_keys (s : WordleSolver)
    (pool_enum c₁ c₂ : List Word) (top_n : Nat)
    (hperm : c₁.Perm c₂) (hcard : 2 < s.possible_answers.card) :
    ((c₁.map (ent_word_key s)).Nodup →
      get_best_guess s pool_enum c₁ top_n = get_best_guess s pool_enum c₂ top_n) ∧
    ((c₁.map (bot_word_key s)).Nodup →
      get_best_guess_bot s pool_enum c₁ top_n = get_best_guess_bot s pool_enum c₂ top_n) := by
  have hne : ¬s.possible_answers = ∅ := by
    intro h
    rw [h] at hcard
    simp at hcard
  have h1 : ¬s.possible_answers.card = 1 := by omega
  have h2 : ¬s.possible_answers.card = 2 := by omega
  constructor
  · intro hnd
    unfold get_best_guess
    simp only [if_neg hne, if_neg h1, if_neg h2]
    letI : DecidableRel (ent_le s) := fun _ _ => Classical.propDecidable _
    refine congrArg (fun l => List.take top_n l) ?_
    refine insertionSort_eq_of_perm_of_nodup (ent_key s) (ent_le s)
      (fun a b => Iff.rfl) _ _ (hperm.map _) ?_
    rw [List.map_map]
    exact hnd
  · intro hnd
    unfold get_best_guess_bot
    simp only [if_neg hne, if_neg h1, if_neg h2]
    letI : DecidableRel bot_main_le := fun _ _ => Classical.propDecidable _
    refine congrArg (fun l => List.take top_n l) ?_
    refine insertionSort_eq_of_perm_of_nodup bot_key bot_main_le
      (fun a b => Iff.rfl) _ _ (hperm.map _) ?_
    rw [List.map_map]
    exact hnd

theorem ent_word_key_snd (s : WordleSolver) (w : Word) :
    (ofLex ((ofLex (ent_word_key s w)).2)).1 =
      poss_neg (decide (w ∈ s.possible_answers)) := rfl

theorem bot_word_key_snd (s : WordleSolver) (w : Word) :
    (ofLex ((ofLex (bot_word_key s w)).2)).1 =
      poss_neg (decide (w ∈ s.possible_answers)) := rfl


/-- Closed-instance witness for `ranking_reproducible_distinct_keys`: two
iteration orders of the candidate set { crane, vague } over a
three-word pool, whose sort keys differ in the is-possible component. -/
theorem ranking_reproducible_distinct_keys_witness :
    get_best_guess
      (⟨false, false, [], [], fun _ => none, fun _ => 0,
        {['c', 'r', 'a', 'n', 'e'], ['s', 'l', 'a', 't', 'e'], ['t', 'r', 'a', 'c', 'k']},
        []⟩ : WordleSolver)
      [] [['c', 'r', 'a', 'n', 'e'], ['v', 'a', 'g', 'u', 'e']] 10 =
    get_best_guess
      (⟨false, false, [], [], fun _ => none, fun _ => 0,
        {['c', 'r', 'a', 'n', 'e'], ['s', 'l', 'a', 't', 'e'], ['t', 'r', 'a', 'c', 'k']},
        []⟩ : WordleSolver)
      [] [['v', 'a', 'g', 'u', 'e'], ['c', 'r', 'a', 'n', 'e']] 10 ∧
    get_best_guess_bot
      (⟨false, false, [], [], fun _ => none, fun _ => 0,
        {['c', 'r', 'a', 'n', 'e'], ['s', 'l', 'a', 't', 'e'], ['t', 'r', 'a', 'c', 'k']},
        []⟩ : WordleSolver)
      [] [['c', 'r', 'a', 'n', 'e'], ['v', 'a', 'g', 'u', 'e']] 10 =
    get_best_guess_bot
      (⟨false, false, [], [], fun _ => none, fun _ => 0,
        {['c', 'r', 'a', 'n', 'e'], ['s', 'l', 'a', 't', 'e'], ['t', 'r', 'a', 'c', 'k']},
        []⟩ : WordleSolver)
      [] [['v', 'a', 'g', 'u', 'e'], ['c', 'r', 'a', 'n', 'e']] 10 := by
  have hperm : ([['c', 'r', 'a', 'n', 'e'], ['v', 'a', 'g', 'u', 'e']] : List Word).Perm
      [['v', 'a', 'g', 'u', 'e'], ['c', 'r', 'a', 'n', 'e']] := List.Perm.swap _ _ _
  have hcard : 2 <
      (⟨false, false, [], [], fun _ => none, fun _ => 0,
        {['c', 'r', 'a', 'n', 'e'], ['s', 'l', 'a', 't', 'e'], ['t', 'r', 'a', 'c', 'k']},
        []⟩ : WordleSolver).possible_answers.card := by decide
  have hd_crane : decide ((['c', 'r', 'a', 'n', 'e'] : Word) ∈
      (⟨false, false, [], [], fun _ => none, fun _ => 0,
        {['c', 'r', 'a', 'n', 'e'], ['s', 'l', 'a', 't', 'e'], ['t', 'r', 'a', 'c', 'k']},
        []⟩ : WordleSolver).possible_answers) = true := by rfl
  have hd_vague : decide ((['v', 'a', 'g', 'u', 'e'] : Word) ∈
      (⟨false, false, [], [], fun _ => none, fun _ => 0,
        {['c', 'r', 'a', 'n', 'e'], ['s', 'l', 'a', 't', 'e'], ['t', 'r', 'a', 'c', 'k']},
        []⟩ : WordleSolver).possible_answers) = false := by rfl
  have hnd_ent : (([['c', 'r', 'a', 'n', 'e'], ['v', 'a', 'g', 'u', 'e']] : List Word).map
      (ent_word_key
        (⟨false, false, [], [], fun _ => none, fun _ => 0,
        {['c', 'r', 'a', 'n', 'e'], ['s', 'l', 'a', 't', 'e'], ['t', 'r', 'a', 'c', 'k']},
        []⟩ : WordleSolver))).Nodup := by
    rw [List.map_cons, List.map_cons, List.map_nil]
    refine List.nodup_cons.mpr
      ⟨?_, List.nodup_cons.mpr ⟨List.not_mem_nil _, List.nodup_nil⟩⟩
    intro hmem
    have heq := List.mem_singleton.mp hmem
    have hcomp := congrArg (fun k => (ofLex ((ofLex k).2)).1) heq
    simp only [ent_word_key_snd] at hcomp
    rw [hd_crane, hd_vague] at hcomp
    simp only [poss_neg] at hcomp
    norm_num at hcomp
  have hnd_bot : (([['c', 'r', 'a', 'n', 'e'], ['v', 'a', 'g', 'u', 'e']] : List Word).map
      (bot_word_key
        (⟨false, false, [], [], fun _ => none, fun _ => 0,
        {['c', 'r', 'a', 'n', 'e'], ['s', 'l', 'a', 't', 'e'], ['t', 'r', 'a', 'c', 'k']},
        []⟩ : WordleSolver))).Nodup := by
    rw [List.map_cons, List.map_cons, List.map_nil]
    refine List.nodup_cons.mpr
      ⟨?_, List.nodup_cons.mpr ⟨List.not_mem_nil _, List.nodup_nil⟩⟩
    intro hmem
    have heq := List.mem_singleton.mp hmem
    have hcomp := congrArg (fun k => (ofLex ((ofLex k).2)).1) heq
    simp only [bot_word_key_snd] at hcomp
    rw [hd_crane, hd_vague] at hcomp
    simp only [poss_neg] at hcomp
    norm_num at hcomp
  exact
    ⟨(ranking_reproducible_distinct_keys
        (⟨false, false, [], [], fun _ => none, fun _ => 0,
        {['c', 'r', 'a', 'n', 'e'], ['s', 'l', 'a', 't', 'e'], ['t', 'r', 'a', 'c', 'k']},
        []⟩ : WordleSolver)
        [] [['c', 'r', 'a', 'n', 'e'], ['v', 'a', 'g', 'u', 'e']] [['v', 'a', 'g', 'u', 'e'], ['c', 'r', 'a', 'n', 'e']] 10 hperm hcard).1 hnd_ent,
      (ranking_reproducible_distinct_keys
        (⟨false, false, [], [], fun _ => none, fun _ => 0,
        {['c', 'r', 'a', 'n', 'e'], ['s', 'l', 'a', 't', 'e'], ['t', 'r', 'a', 'c', 'k']},
        []⟩ : WordleSolver)
        [] [['c', 'r', 'a', 'n', 'e'], ['v', 'a', 'g', 'u', 'e']] [['v', 'a', 'g', 'u', 'e'], ['c', 'r', 'a', 'n', 'e']] 10 hperm hcard).2 hnd_bot⟩
